import Mathlib

/-!
Verification of the `shuffleid` permutation cipher (`src/shuffileid.py`).

The Python class `ShuffleID` holds a `bit_size` and a list of round tables
(`shuffles`); `encode` and `decode` mix the two halves of the input value
with modular additions driven by table lookups.  Python integers are
unbounded, so values are modelled as `Int` (inputs may be negative) and the
non-negative quantities occurring inside the loops as `Nat`.  A Python list
lookup `shuffle[i]` with `i` a non-negative index raises `IndexError` when
`i` is out of range; this fallibility is modelled with `Option`, a `none`
result standing for the raised exception.  The constructor `__init__`
performs no validation and cannot fail, so construction is a total function.
-/

structure ShuffleID where
  bit_size : Nat
  shuffles : List (List Nat)
  deriving Repr, DecidableEq

namespace ShuffleID

/-- `self._size = bit_size // 2` (Python floor division). -/
def size (c : ShuffleID) : Nat := c.bit_size / 2

/-- `self._max_shuffle = 2 ** self._size`. -/
def max_shuffle (c : ShuffleID) : Nat := 2 ^ c.size

/-- `self._x_mask = (2 ** self._size) - 1`. -/
def x_mask (c : ShuffleID) : Nat := 2 ^ c.size - 1

/-- `self._y_mask = self._x_mask << self._size`. -/
def y_mask (c : ShuffleID) : Nat := c.x_mask <<< c.size

/-- `x = value & self._x_mask`: Python `&` on unbounded ints is
two's-complement bitwise AND, and masking with `2^size - 1` extracts the low
`size` bits, which is exactly floor-mod by `2^size` (Python `%`, i.e. `emod`),
for negative `value` as well. -/
def split_x (c : ShuffleID) (value : Int) : Nat :=
  (value % ((2 : Int) ^ c.size)).toNat

/-- `y = (value & self._y_mask) >> size`: the mask keeps bits
`size .. 2*size - 1`, so the shifted result is the floor-mod of `value` by
`2^(2*size)` divided by `2^size`. -/
def split_y (c : ShuffleID) (value : Int) : Nat :=
  ((value % ((2 : Int) ^ (2 * c.size))) / ((2 : Int) ^ c.size)).toNat

end ShuffleID

/-- The `for shuffle in self.shuffles` loop of `encode`: per round,
`x = (x + shuffle[y]) % max_shuffle` then
`y = (y + shuffle[x + size]) % max_shuffle` with the just-updated `x`.
A failed lookup (Python `IndexError`) yields `none`. -/
def encodeLoop (size max_shuffle : Nat) :
    List (List Nat) → Nat → Nat → Option (Nat × Nat)
  | [], x, y => some (x, y)
  | shuffle :: rest, x, y =>
    match shuffle[y]? with
    | none => none
    | some tx =>
      let x2 := (x + tx) % max_shuffle
      match shuffle[x2 + size]? with
      | none => none
      | some ty =>
        let y2 := (y + ty) % max_shuffle
        encodeLoop size max_shuffle rest x2 y2

/-- The `for shuffle in reversed(self.shuffles)` loop of `decode`
(the caller passes the reversed table list): per round,
`y = (y - shuffle[x + size]) % max_shuffle` then
`x = (x - shuffle[y]) % max_shuffle`.  Python `%` on a possibly negative
left operand is floor-mod, i.e. `Int.emod`. -/
def decodeLoop (size max_shuffle : Nat) :
    List (List Nat) → Nat → Nat → Option (Nat × Nat)
  | [], x, y => some (x, y)
  | shuffle :: rest, x, y =>
    match shuffle[x + size]? with
    | none => none
    | some ty =>
      let y2 := (((y : Int) - (ty : Int)) % (max_shuffle : Int)).toNat
      match shuffle[y2]? with
      | none => none
      | some tx =>
        let x2 := (((x : Int) - (tx : Int)) % (max_shuffle : Int)).toNat
        decodeLoop size max_shuffle rest x2 y2

namespace ShuffleID

/-- `ShuffleID.encode`: split, run the round loop, recombine with
`(y << size) | x`. -/
def encode (c : ShuffleID) (value : Int) : Option Int :=
  match encodeLoop c.size c.max_shuffle c.shuffles (c.split_x value) (c.split_y value) with
  | none => none
  | some (x, y) => some (((y <<< c.size) ||| x : Nat) : Int)

/-- `ShuffleID.decode`: split, run the reversed round loop, recombine with
`(y << size) | x`. -/
def decode (c : ShuffleID) (value : Int) : Option Int :=
  match decodeLoop c.size c.max_shuffle c.shuffles.reverse (c.split_x value) (c.split_y value) with
  | none => none
  | some (x, y) => some (((y <<< c.size) ||| x : Nat) : Int)

end ShuffleID

section FromSeed

variable {G : Type}

/-- One round table, `[randrange(max_shuffle) for _ in range(size)]`:
`n` draws from the stateful generator `g` with the given bound, returning
the table and the advanced generator state.  `g` models the bound method
`Random(seed).randrange` of Python's `random` module (an external library):
each call consumes generator state and returns a value in `[0, bound)`. -/
def randList (g : Nat → G → Nat × G) (bound : Nat) : Nat → G → List Nat × G
  | 0, st => ([], st)
  | Nat.succ n, st =>
    let v := g bound st
    let rest := randList g bound n v.2
    (v.1 :: rest.1, rest.2)

/-- The table-of-tables comprehension of `from_seed`: `rounds` tables of
`len` draws each, consumed from the generator in order (outer loop over
rounds, inner loop over table position). -/
def randLists (g : Nat → G → Nat × G) (bound len : Nat) :
    Nat → G → List (List Nat) × G
  | 0, st => ([], st)
  | Nat.succ n, st =>
    let t := randList g bound len st
    let rest := randLists g bound len n t.2
    (t.1 :: rest.1, rest.2)

/-- `ShuffleID.from_seed(bit_size, seed, rounds)`: `max_shuffle = 2**(bit_size//2)`,
`size = 2**(bit_size//2) * 2`, tables drawn from `Random(seed).randrange`.
The pseudorandom generator is modelled abstractly: `initState seed` is the
state of `Random(seed)` and `g` its `randrange` step function. -/
def ShuffleID.from_seed (g : Nat → G → Nat × G) (initState : Int → G)
    (bit_size : Nat) (seed : Int) (rounds : Nat) : ShuffleID :=
  let max_shuffle := 2 ^ (bit_size / 2)
  let size := 2 ^ (bit_size / 2) * 2
  ShuffleID.mk bit_size (randLists g max_shuffle size rounds (initState seed)).1

end FromSeed

/-- One round exactly as the specification words it: first
`x ← (x + T[y]) mod max_shuffle`, then
`y ← (y + T[x + half_size]) mod max_shuffle` using the just-updated `x`.
This is the spec's total description of a round (table accesses assumed in
bounds, modelled with `List.getD`), to be compared with `encodeLoop`, which
is translated from the source. -/
def specRound (size max_shuffle : Nat) (p : Nat × Nat) (T : List Nat) :
    Nat × Nat :=
  let x := (p.1 + T.getD p.2 0) % max_shuffle
  let y := (p.2 + T.getD (x + size) 0) % max_shuffle
  (x, y)

/-- `encode` exactly as claim C5 words it: split with
`x = value & (max_shuffle-1)` and `y = (value >> half_size) & (max_shuffle-1)`
(Python `>>` on ints is arithmetic shift, i.e. floor division by `2^size`,
and the mask is floor-mod), apply the rounds in schedule order, and return
`(y << half_size) | x`.  This is the spec-side definition for the refinement
claim; `ShuffleID.encode` is the source-side one. -/
def ShuffleID.encodeSpec (c : ShuffleID) (value : Int) : Int :=
  let x0 := (value % ((2 : Int) ^ c.size)).toNat
  let y0 := ((value / ((2 : Int) ^ c.size)) % ((2 : Int) ^ c.size)).toNat
  let p := c.shuffles.foldl (specRound c.size c.max_shuffle) (x0, y0)
  (((p.2 <<< c.size) ||| p.1 : Nat) : Int)

example :
    (ShuffleID.mk 2 [[1, 0, 1, 1]]).encode 2 = some 2 := by decide

example :
    (ShuffleID.mk 2 [[1, 0, 1, 1]]).decode 2 = some 2 := by decide

lemma self_lt_two_pow (n : Nat) : n < 2 ^ n := by
  induction n with
  | zero => simp
  | succ k ih => rw [pow_succ]; omega

/-- Subtracting a round value undoes adding it, modulo `m` (on `Int`,
matching Python floor-mod), provided the original coordinate was reduced. -/
lemma step_sub_cancel (a t m : Nat) (ha : a < m) :
    ((((a + t) % m : Nat) : Int) - (t : Int)) % (m : Int) = (a : Int) := by
  push_cast
  rw [Int.sub_emod, Int.emod_emod_of_dvd _ dvd_rfl, ← Int.sub_emod,
    add_sub_cancel_right,
    Int.emod_eq_of_lt (by positivity) (by exact_mod_cast ha)]

lemma step_sub_cancel_toNat (a t m : Nat) (ha : a < m) :
    (((((a + t) % m : Nat) : Int) - (t : Int)) % (m : Int)).toNat = a := by
  rw [step_sub_cancel a t m ha, Int.toNat_ofNat]

/-- Adding a round value undoes subtracting it, modulo `m`. -/
lemma step_add_cancel (a t m : Nat) (ha : a < m) :
    ((((a : Int) - (t : Int)) % (m : Int)).toNat + t) % m = a := by
  have hm : 0 < m := by omega
  have hmz : ((m : Int)) ≠ 0 := by exact_mod_cast hm.ne'
  have hnn : 0 ≤ ((a : Int) - (t : Int)) % (m : Int) := Int.emod_nonneg _ hmz
  have h1 : (((((a : Int) - (t : Int)) % (m : Int)).toNat : Int))
      = ((a : Int) - (t : Int)) % (m : Int) := Int.toNat_of_nonneg hnn
  have : ((((((a : Int) - (t : Int)) % (m : Int)).toNat + t) % m : Nat) : Int)
      = (a : Int) := by
    push_cast
    rw [h1, Int.add_emod, Int.emod_emod_of_dvd _ dvd_rfl, ← Int.add_emod,
      sub_add_cancel,
      Int.emod_eq_of_lt (by positivity) (by exact_mod_cast ha)]
  exact_mod_cast this

/-- The floor-mod of any integer by a positive `m`, taken back to `Nat`,
is below `m`. -/
lemma emod_toNat_lt (z : Int) (m : Nat) (hm : 0 < m) :
    (z % (m : Int)).toNat < m := by
  have hmz : ((m : Int)) ≠ 0 := by exact_mod_cast hm.ne'
  have h1 : 0 ≤ z % (m : Int) := Int.emod_nonneg _ hmz
  have h2 : z % (m : Int) < (m : Int) := Int.emod_lt_of_pos _ (by exact_mod_cast hm)
  omega

/-- Running the encode loop over a concatenated schedule is sequential
composition. -/
lemma encodeLoop_append (s m : Nat) (L1 L2 : List (List Nat)) :
    ∀ x y, encodeLoop s m (L1 ++ L2) x y =
      (encodeLoop s m L1 x y).bind fun p => encodeLoop s m L2 p.1 p.2 := by
  induction L1 with
  | nil => intro x y; simp [encodeLoop]
  | cons T rest ih =>
    intro x y
    simp only [List.cons_append, encodeLoop]
    cases h1 : T[y]? with
    | none => rfl
    | some tx =>
      dsimp only
      cases h2 : T[(x + tx) % m + s]? with
      | none => rfl
      | some ty =>
        dsimp only
        exact ih _ _

/-- Running the decode loop over a concatenated schedule is sequential
composition. -/
lemma decodeLoop_append (s m : Nat) (L1 L2 : List (List Nat)) :
    ∀ x y, decodeLoop s m (L1 ++ L2) x y =
      (decodeLoop s m L1 x y).bind fun p => decodeLoop s m L2 p.1 p.2 := by
  induction L1 with
  | nil => intro x y; simp [decodeLoop]
  | cons T rest ih =>
    intro x y
    simp only [List.cons_append, decodeLoop]
    cases h1 : T[x + s]? with
    | none => rfl
    | some ty =>
      dsimp only
      cases h2 : T[(((y : Int) - (ty : Int)) % (m : Int)).toNat]? with
      | none => rfl
      | some tx =>
        dsimp only
        exact ih _ _

/-- With reduced inputs and tables long enough, the encode loop performs no
out-of-range lookup and keeps both halves reduced. -/
lemma encodeLoop_some (s m : Nat) (hm : 0 < m) :
    ∀ (L : List (List Nat)) (x y : Nat), x < m → y < m →
      (∀ T ∈ L, m + s ≤ T.length) →
      ∃ x2 y2, encodeLoop s m L x y = some (x2, y2) ∧ x2 < m ∧ y2 < m := by
  intro L
  induction L with
  | nil => intro x y hx hy _; exact ⟨x, y, rfl, hx, hy⟩
  | cons T rest ih =>
    intro x y hx hy hlen
    have hT : m + s ≤ T.length := hlen T (by simp)
    have h1 : y < T.length := by omega
    have h2 : (x + T[y]) % m + s < T.length := by
      have := Nat.mod_lt (x + T[y]) hm
      omega
    obtain ⟨x2, y2, hrec, hx2, hy2⟩ :=
      ih ((x + T[y]) % m) ((y + T[(x + T[y]) % m + s]) % m)
        (Nat.mod_lt _ hm) (Nat.mod_lt _ hm)
        (fun U hU => hlen U (by simp [hU]))
    refine ⟨x2, y2, ?_, hx2, hy2⟩
    simp only [encodeLoop, List.getElem?_eq_getElem h1,
      List.getElem?_eq_getElem h2]
    exact hrec

/-- With reduced inputs and tables long enough, the decode loop performs no
out-of-range lookup and keeps both halves reduced. -/
lemma decodeLoop_some (s m : Nat) (hm : 0 < m) :
    ∀ (L : List (List Nat)) (x y : Nat), x < m → y < m →
      (∀ T ∈ L, m + s ≤ T.length) →
      ∃ x2 y2, decodeLoop s m L x y = some (x2, y2) ∧ x2 < m ∧ y2 < m := by
  intro L
  induction L with
  | nil => intro x y hx hy _; exact ⟨x, y, rfl, hx, hy⟩
  | cons T rest ih =>
    intro x y hx hy hlen
    have hT : m + s ≤ T.length := hlen T (by simp)
    have h1 : x + s < T.length := by omega
    have hy2 : (((y : Int) - (T[x + s] : Int)) % (m : Int)).toNat < m :=
      emod_toNat_lt _ m hm
    have h2 : (((y : Int) - (T[x + s] : Int)) % (m : Int)).toNat < T.length := by
      omega
    obtain ⟨x2, y2, hrec, hx2, hy2'⟩ :=
      ih (((x : Int) - (T[(((y : Int) - (T[x + s] : Int)) % (m : Int)).toNat] : Int))
            % (m : Int)).toNat
        (((y : Int) - (T[x + s] : Int)) % (m : Int)).toNat
        (emod_toNat_lt _ m hm) hy2
        (fun U hU => hlen U (by simp [hU]))
    refine ⟨x2, y2, ?_, hx2, hy2'⟩
    simp only [decodeLoop, List.getElem?_eq_getElem h1,
      List.getElem?_eq_getElem h2]
    exact hrec

/-- Core inversion: whatever the encode loop produced from reduced halves,
the decode loop over the reversed schedule restores them. -/
lemma decodeLoop_reverse_encodeLoop (s m : Nat) (hm : 0 < m) :
    ∀ (L : List (List Nat)) (x y x2 y2 : Nat), x < m → y < m →
      encodeLoop s m L x y = some (x2, y2) →
      decodeLoop s m L.reverse x2 y2 = some (x, y) := by
  intro L
  induction L with
  | nil =>
    intro x y x2 y2 hx hy h
    simp only [encodeLoop, Option.some.injEq, Prod.mk.injEq] at h
    simp [decodeLoop, h.1, h.2]
  | cons T rest ih =>
    intro x y x2 y2 hx hy h
    simp only [encodeLoop] at h
    cases h1 : T[y]? with
    | none => rw [h1] at h; exact absurd h (by simp)
    | some tx =>
      rw [h1] at h; dsimp only at h
      cases h2 : T[(x + tx) % m + s]? with
      | none => rw [h2] at h; exact absurd h (by simp)
      | some ty =>
        rw [h2] at h; dsimp only at h
        have hrec := ih ((x + tx) % m) ((y + ty) % m) x2 y2
          (Nat.mod_lt _ hm) (Nat.mod_lt _ hm) h
        rw [List.reverse_cons, decodeLoop_append, hrec]
        simp only [Option.some_bind]
        have ey : (((((y + ty) % m : Nat) : Int) - (ty : Int)) % (m : Int)).toNat = y :=
          step_sub_cancel_toNat y ty m hy
        have ex : (((((x + tx) % m : Nat) : Int) - (tx : Int)) % (m : Int)).toNat = x :=
          step_sub_cancel_toNat x tx m hx
        simp only [decodeLoop, h2, ey, h1, ex]

/-- Core inversion, other direction: whatever the decode loop produced from
reduced halves, the encode loop over the reversed schedule restores them. -/
lemma encodeLoop_reverse_decodeLoop (s m : Nat) (hm : 0 < m) :
    ∀ (L : List (List Nat)) (x y x2 y2 : Nat), x < m → y < m →
      decodeLoop s m L x y = some (x2, y2) →
      encodeLoop s m L.reverse x2 y2 = some (x, y) := by
  intro L
  induction L with
  | nil =>
    intro x y x2 y2 hx hy h
    simp only [decodeLoop, Option.some.injEq, Prod.mk.injEq] at h
    simp [encodeLoop, h.1, h.2]
  | cons T rest ih =>
    intro x y x2 y2 hx hy h
    simp only [decodeLoop] at h
    cases h1 : T[x + s]? with
    | none => rw [h1] at h; exact absurd h (by simp)
    | some ty =>
      rw [h1] at h; dsimp only at h
      cases h2 : T[(((y : Int) - (ty : Int)) % (m : Int)).toNat]? with
      | none => rw [h2] at h; exact absurd h (by simp)
      | some tx =>
        rw [h2] at h; dsimp only at h
        have hrec := ih (((x : Int) - (tx : Int)) % (m : Int)).toNat
          (((y : Int) - (ty : Int)) % (m : Int)).toNat x2 y2
          (emod_toNat_lt _ m hm) (emod_toNat_lt _ m hm) h
        rw [List.reverse_cons, encodeLoop_append, hrec]
        simp only [Option.some_bind]
        have ex : ((((x : Int) - (tx : Int)) % (m : Int)).toNat + tx) % m = x :=
          step_add_cancel x tx m hx
        have ey : ((((y : Int) - (ty : Int)) % (m : Int)).toNat + ty) % m = y :=
          step_add_cancel y ty m hy
        simp only [encodeLoop, h2, ex, h1, ey]

/-- Recombination `(y << size) | x` is `y * 2^size + x` when `x` fits in the
low half. -/
lemma combine_eq (s x y : Nat) (hx : x < 2 ^ s) :
    ((y <<< s) ||| x) = y * 2 ^ s + x := by
  rw [Nat.shiftLeft_eq]
  calc y * 2 ^ s ||| x = 2 ^ s * y ||| x := by rw [Nat.mul_comm]
    _ = 2 ^ s * y + x := (Nat.mul_add_lt_is_or hx y).symm
    _ = y * 2 ^ s + x := by rw [Nat.mul_comm]

lemma combine_lt (s x y : Nat) (hx : x < 2 ^ s) (hy : y < 2 ^ s) :
    y * 2 ^ s + x < 2 ^ (2 * s) := by
  have h1 : (y + 1) * 2 ^ s ≤ 2 ^ s * 2 ^ s := by
    rw [Nat.mul_comm (y + 1)]
    exact Nat.mul_le_mul_left _ (by omega)
  have h2 : 2 ^ s * 2 ^ s = 2 ^ (2 * s) := by rw [two_mul, pow_add]
  have h3 : (y + 1) * 2 ^ s = y * 2 ^ s + 2 ^ s := by ring
  omega

lemma int_two_pow (s : Nat) : (((2 ^ s : Nat) : Int)) = (2 : Int) ^ s := by
  push_cast
  rfl

/-- The low half extracted by the mask is always reduced. -/
lemma split_x_lt (c : ShuffleID) (v : Int) : c.split_x v < 2 ^ c.size := by
  unfold ShuffleID.split_x
  rw [← int_two_pow]
  exact emod_toNat_lt v _ (Nat.two_pow_pos _)

/-- The high half extracted by mask-and-shift is always reduced. -/
lemma split_y_lt (c : ShuffleID) (v : Int) : c.split_y v < 2 ^ c.size := by
  unfold ShuffleID.split_y
  have h2s : (0 : Int) < (2 : Int) ^ (2 * c.size) := by positivity
  have hnn : 0 ≤ v % (2 : Int) ^ (2 * c.size) := Int.emod_nonneg _ (by positivity)
  have hlt : v % (2 : Int) ^ (2 * c.size) < (2 : Int) ^ (2 * c.size) :=
    Int.emod_lt_of_pos _ h2s
  obtain ⟨n, hn⟩ : ∃ n : Nat, ((n : Int)) = v % (2 : Int) ^ (2 * c.size) :=
    ⟨(v % (2 : Int) ^ (2 * c.size)).toNat, Int.toNat_of_nonneg hnn⟩
  rw [← hn, ← int_two_pow, ← Int.ofNat_ediv, Int.toNat_ofNat]
  have hnlt : n < 2 ^ (2 * c.size) := by
    rw [← hn, ← int_two_pow] at hlt
    exact_mod_cast hlt
  have hmul : 2 ^ c.size * 2 ^ c.size = 2 ^ (2 * c.size) := by
    rw [two_mul, pow_add]
  exact Nat.div_lt_of_lt_mul (by omega)

lemma split_x_combine (c : ShuffleID) (x y : Nat) (hx : x < 2 ^ c.size) :
    c.split_x ((y * 2 ^ c.size + x : Nat) : Int) = x := by
  unfold ShuffleID.split_x
  rw [← int_two_pow, ← Int.ofNat_emod, Int.toNat_ofNat, Nat.mul_comm y,
    Nat.mul_add_mod, Nat.mod_eq_of_lt hx]

lemma split_y_combine (c : ShuffleID) (x y : Nat) (hx : x < 2 ^ c.size)
    (hy : y < 2 ^ c.size) :
    c.split_y ((y * 2 ^ c.size + x : Nat) : Int) = y := by
  unfold ShuffleID.split_y
  have hlt : y * 2 ^ c.size + x < 2 ^ (2 * c.size) := combine_lt _ _ _ hx hy
  rw [← int_two_pow (2 * c.size), ← Int.ofNat_emod, Nat.mod_eq_of_lt hlt,
    ← int_two_pow c.size, ← Int.ofNat_ediv, Int.toNat_ofNat, Nat.mul_comm y,
    Nat.mul_add_div (Nat.two_pow_pos _), Nat.div_eq_of_lt hx]
  omega

/-- For a value inside the effective domain, recombining the two extracted
halves gives the value back. -/
lemma split_recombine (c : ShuffleID) (v : Int) (h0 : 0 ≤ v)
    (hv : v < (2 : Int) ^ (2 * c.size)) :
    ((c.split_y v * 2 ^ c.size + c.split_x v : Nat) : Int) = v := by
  obtain ⟨n, rfl⟩ : ∃ n : Nat, v = ((n : Int)) :=
    ⟨v.toNat, (Int.toNat_of_nonneg h0).symm⟩
  have hn : n < 2 ^ (2 * c.size) := by
    rw [← int_two_pow] at hv
    exact_mod_cast hv
  unfold ShuffleID.split_x ShuffleID.split_y
  rw [← int_two_pow (2 * c.size), ← Int.ofNat_emod, Nat.mod_eq_of_lt hn,
    ← int_two_pow c.size, ← Int.ofNat_emod, ← Int.ofNat_ediv,
    Int.toNat_ofNat, Int.toNat_ofNat]
  exact_mod_cast congrArg (fun k : Nat => ((k : Int)))
    (Nat.div_add_mod' n (2 ^ c.size))

/-- Tables of the length produced by `from_seed` (`2 * max_shuffle`) are long
enough for every lookup: indices are at most `max_shuffle - 1 + size` and
`size ≤ 2 ^ size = max_shuffle`. -/
lemma lengths_ok (c : ShuffleID)
    (hlen : ∀ T ∈ c.shuffles, T.length = 2 * c.max_shuffle) :
    ∀ T ∈ c.shuffles, c.max_shuffle + c.size ≤ T.length := by
  intro T hT
  rw [hlen T hT]
  have := self_lt_two_pow c.size
  unfold ShuffleID.max_shuffle
  omega

lemma lengths_ok_reverse (c : ShuffleID)
    (hlen : ∀ T ∈ c.shuffles, T.length = 2 * c.max_shuffle) :
    ∀ T ∈ c.shuffles.reverse, c.max_shuffle + c.size ≤ T.length := by
  intro T hT
  exact lengths_ok c hlen T (List.mem_reverse.mp hT)

/-- `encode` never hits an out-of-range lookup when the tables are long
enough, and its loop output halves are reduced. -/
lemma encode_some (c : ShuffleID)
    (hlen : ∀ T ∈ c.shuffles, c.max_shuffle + c.size ≤ T.length) (v : Int) :
    ∃ x2 y2, x2 < c.max_shuffle ∧ y2 < c.max_shuffle ∧
      encodeLoop c.size c.max_shuffle c.shuffles (c.split_x v) (c.split_y v)
        = some (x2, y2) ∧
      c.encode v = some ((y2 * 2 ^ c.size + x2 : Nat) : Int) := by
  have hm : 0 < c.max_shuffle := Nat.two_pow_pos _
  obtain ⟨x2, y2, hloop, hx2, hy2⟩ :=
    encodeLoop_some c.size c.max_shuffle hm c.shuffles (c.split_x v)
      (c.split_y v) (split_x_lt c v) (split_y_lt c v) hlen
  refine ⟨x2, y2, hx2, hy2, hloop, ?_⟩
  simp only [ShuffleID.encode, hloop]
  rw [combine_eq c.size x2 y2 hx2]

/-- `decode` never hits an out-of-range lookup when the tables are long
enough, and its loop output halves are reduced. -/
lemma decode_some (c : ShuffleID)
    (hlen : ∀ T ∈ c.shuffles.reverse, c.max_shuffle + c.size ≤ T.length)
    (v : Int) :
    ∃ x2 y2, x2 < c.max_shuffle ∧ y2 < c.max_shuffle ∧
      decodeLoop c.size c.max_shuffle c.shuffles.reverse (c.split_x v)
        (c.split_y v) = some (x2, y2) ∧
      c.decode v = some ((y2 * 2 ^ c.size + x2 : Nat) : Int) := by
  have hm : 0 < c.max_shuffle := Nat.two_pow_pos _
  obtain ⟨x2, y2, hloop, hx2, hy2⟩ :=
    decodeLoop_some c.size c.max_shuffle hm c.shuffles.reverse (c.split_x v)
      (c.split_y v) (split_x_lt c v) (split_y_lt c v) hlen
  refine ⟨x2, y2, hx2, hy2, hloop, ?_⟩
  simp only [ShuffleID.decode, hloop]
  rw [combine_eq c.size x2 y2 hx2]

/-- Full round trip: `decode (encode v) = v` on the domain, for an even
bit size and well-formed table lengths. -/
lemma decode_encode_eq (c : ShuffleID) (heven : c.bit_size % 2 = 0)
    (hlen : ∀ T ∈ c.shuffles, T.length = 2 * c.max_shuffle) (v : Int)
    (h0 : 0 ≤ v) (hv : v < (2 : Int) ^ c.bit_size) :
    (c.encode v).bind c.decode = some v := by
  have hbs : c.bit_size = 2 * c.size := by
    unfold ShuffleID.size
    omega
  have hm : 0 < c.max_shuffle := Nat.two_pow_pos _
  obtain ⟨x2, y2, hx2, hy2, hloop, henc⟩ := encode_some c (lengths_ok c hlen) v
  rw [henc, Option.some_bind]
  have hsx : c.split_x ((y2 * 2 ^ c.size + x2 : Nat) : Int) = x2 :=
    split_x_combine c x2 y2 hx2
  have hsy : c.split_y ((y2 * 2 ^ c.size + x2 : Nat) : Int) = y2 :=
    split_y_combine c x2 y2 hx2 hy2
  have hback := decodeLoop_reverse_encodeLoop c.size c.max_shuffle hm
    c.shuffles (c.split_x v) (c.split_y v) x2 y2 (split_x_lt c v)
    (split_y_lt c v) hloop
  simp only [ShuffleID.decode, hsx, hsy, hback]
  rw [combine_eq _ _ _ (split_x_lt c v), split_recombine c v h0 (by rw [hbs] at hv; exact hv)]

/-- Full round trip, other direction: `encode (decode w) = w` on the domain,
for an even bit size and well-formed table lengths. -/
lemma encode_decode_eq (c : ShuffleID) (heven : c.bit_size % 2 = 0)
    (hlen : ∀ T ∈ c.shuffles, T.length = 2 * c.max_shuffle) (w : Int)
    (h0 : 0 ≤ w) (hw : w < (2 : Int) ^ c.bit_size) :
    (c.decode w).bind c.encode = some w := by
  have hbs : c.bit_size = 2 * c.size := by
    unfold ShuffleID.size
    omega
  have hm : 0 < c.max_shuffle := Nat.two_pow_pos _
  obtain ⟨x2, y2, hx2, hy2, hloop, hdec⟩ :=
    decode_some c (lengths_ok_reverse c hlen) w
  rw [hdec, Option.some_bind]
  have hsx : c.split_x ((y2 * 2 ^ c.size + x2 : Nat) : Int) = x2 :=
    split_x_combine c x2 y2 hx2
  have hsy : c.split_y ((y2 * 2 ^ c.size + x2 : Nat) : Int) = y2 :=
    split_y_combine c x2 y2 hx2 hy2
  have hback := encodeLoop_reverse_decodeLoop c.size c.max_shuffle hm
    c.shuffles.reverse (c.split_x w) (c.split_y w) x2 y2 (split_x_lt c w)
    (split_y_lt c w) hloop
  rw [List.reverse_reverse] at hback
  simp only [ShuffleID.encode, hsx, hsy, hback]
  rw [combine_eq _ _ _ (split_x_lt c w), split_recombine c w h0 (by rw [hbs] at hw; exact hw)]

/-- The low-half mask only sees the low `bit_size` bits of the input. -/
lemma split_x_mod (c : ShuffleID) (v : Int) :
    c.split_x (v % (2 : Int) ^ c.bit_size) = c.split_x v := by
  unfold ShuffleID.split_x
  have hs : c.size ≤ c.bit_size := Nat.div_le_self _ _
  rw [Int.emod_emod_of_dvd v (pow_dvd_pow 2 hs)]

/-- The high-half mask only sees the low `bit_size` bits of the input. -/
lemma split_y_mod (c : ShuffleID) (v : Int) :
    c.split_y (v % (2 : Int) ^ c.bit_size) = c.split_y v := by
  unfold ShuffleID.split_y
  have hs : 2 * c.size ≤ c.bit_size := by
    unfold ShuffleID.size
    omega
  rw [Int.emod_emod_of_dvd v (pow_dvd_pow 2 hs)]

/-- `encode` depends on its input only through the two masked halves. -/
lemma encode_mod (c : ShuffleID) (v : Int) :
    c.encode (v % (2 : Int) ^ c.bit_size) = c.encode v := by
  unfold ShuffleID.encode
  rw [split_x_mod, split_y_mod]

/-- `decode` depends on its input only through the two masked halves. -/
lemma decode_mod (c : ShuffleID) (v : Int) :
    c.decode (v % (2 : Int) ^ c.bit_size) = c.decode v := by
  unfold ShuffleID.decode
  rw [split_x_mod, split_y_mod]

/-- C1: for every cipher with an even `bit_size ≥ 2`, every schedule of round
tables of length `2 * max_shuffle` with entries in `[0, max_shuffle)`, and
every value in `[0, 2^bit_size)`, `decode (encode value) = value`. -/
theorem claim_C1_roundtrip (c : ShuffleID) (hbs : 2 ≤ c.bit_size)
    (heven : c.bit_size % 2 = 0)
    (hlen : ∀ T ∈ c.shuffles, T.length = 2 * c.max_shuffle)
    (hent : ∀ T ∈ c.shuffles, ∀ e ∈ T, e < c.max_shuffle)
    (v : Int) (h0 : 0 ≤ v) (hv : v < (2 : Int) ^ c.bit_size) :
    (c.encode v).bind c.decode = some v :=
  decode_encode_eq c heven hlen v h0 hv

theorem claim_C1_roundtrip_witness :
    ((ShuffleID.mk 2 [[1, 0, 1, 1]]).encode 2).bind
      (ShuffleID.mk 2 [[1, 0, 1, 1]]).decode = some 2 :=
  claim_C1_roundtrip (ShuffleID.mk 2 [[1, 0, 1, 1]]) (by decide) (by decide)
    (by decide) (by decide) 2 (by decide) (by decide)

/-- C8: for every cipher with even `bit_size ≥ 2` and well-formed table
lengths, `encode` and `decode` of an in-range value both succeed and their
results lie in `[0, 2^bit_size)` — in particular decoding with a cipher
built from a different seed returns an in-range integer and never fails. -/
theorem claim_C8_range (c : ShuffleID) (hbs : 2 ≤ c.bit_size)
    (heven : c.bit_size % 2 = 0)
    (hlen : ∀ T ∈ c.shuffles, T.length = 2 * c.max_shuffle)
    (v : Int) (h0 : 0 ≤ v) (hv : v < (2 : Int) ^ c.bit_size) :
    (∃ r, c.encode v = some r ∧ 0 ≤ r ∧ r < (2 : Int) ^ c.bit_size) ∧
    (∃ r, c.decode v = some r ∧ 0 ≤ r ∧ r < (2 : Int) ^ c.bit_size) := by
  have hbs2 : c.bit_size = 2 * c.size := by
    unfold ShuffleID.size
    omega
  obtain ⟨x2, y2, hx2, hy2, _, henc⟩ := encode_some c (lengths_ok c hlen) v
  obtain ⟨x3, y3, hx3, hy3, _, hdec⟩ := decode_some c (lengths_ok_reverse c hlen) v
  constructor
  · refine ⟨_, henc, Int.natCast_nonneg _, ?_⟩
    rw [hbs2, ← int_two_pow]
    exact_mod_cast combine_lt c.size x2 y2 hx2 hy2
  · refine ⟨_, hdec, Int.natCast_nonneg _, ?_⟩
    rw [hbs2, ← int_two_pow]
    exact_mod_cast combine_lt c.size x3 y3 hx3 hy3

theorem claim_C8_range_witness :
    (∃ r, (ShuffleID.mk 2 [[1, 0, 1, 1]]).encode 2 = some r ∧ 0 ≤ r ∧ r < (2 : Int) ^ 2) ∧
    (∃ r, (ShuffleID.mk 2 [[1, 0, 1, 1]]).decode 2 = some r ∧ 0 ≤ r ∧ r < (2 : Int) ^ 2) :=
  claim_C8_range (ShuffleID.mk 2 [[1, 0, 1, 1]]) (by decide) (by decide)
    (by decide) 2 (by decide) (by decide)

/-- C9: for a cipher with well-formed table lengths (the data-model
invariant) and any integer input, including negative values and values
`≥ 2^bit_size`, `encode` and `decode` succeed and agree with their value at
`value mod 2^bit_size`: only the low bits influence the result. -/
theorem claim_C9_masking (c : ShuffleID)
    (hlen : ∀ T ∈ c.shuffles, T.length = 2 * c.max_shuffle) (v : Int) :
    (∃ r, c.encode v = some r) ∧
    c.encode v = c.encode (v % (2 : Int) ^ c.bit_size) ∧
    (∃ r, c.decode v = some r) ∧
    c.decode v = c.decode (v % (2 : Int) ^ c.bit_size) := by
  obtain ⟨x2, y2, _, _, _, henc⟩ := encode_some c (lengths_ok c hlen) v
  obtain ⟨x3, y3, _, _, _, hdec⟩ := decode_some c (lengths_ok_reverse c hlen) v
  exact ⟨⟨_, henc⟩, (encode_mod c v).symm, ⟨_, hdec⟩, (decode_mod c v).symm⟩

theorem claim_C9_masking_witness :
    (∃ r, (ShuffleID.mk 2 [[1, 0, 1, 1]]).encode (-7) = some r) ∧
    (ShuffleID.mk 2 [[1, 0, 1, 1]]).encode (-7)
      = (ShuffleID.mk 2 [[1, 0, 1, 1]]).encode ((-7) % (2 : Int) ^ 2) ∧
    (∃ r, (ShuffleID.mk 2 [[1, 0, 1, 1]]).decode (-7) = some r) ∧
    (ShuffleID.mk 2 [[1, 0, 1, 1]]).decode (-7)
      = (ShuffleID.mk 2 [[1, 0, 1, 1]]).decode ((-7) % (2 : Int) ^ 2) :=
  claim_C9_masking (ShuffleID.mk 2 [[1, 0, 1, 1]]) (by decide) (-7)

/-- C10: for every cipher whose round tables each have length
`2 * max_shuffle` and even `bit_size ≥ 2`, every table access performed by
`encode` and `decode` is in bounds — neither ever returns `none`
(no `IndexError`), for any integer input whatsoever. -/
theorem claim_C10_lookups_in_bounds (c : ShuffleID) (hbs : 2 ≤ c.bit_size)
    (heven : c.bit_size % 2 = 0)
    (hlen : ∀ T ∈ c.shuffles, T.length = 2 * c.max_shuffle) (v : Int) :
    (c.encode v).isSome ∧ (c.decode v).isSome := by
  obtain ⟨_, _, _, _, _, henc⟩ := encode_some c (lengths_ok c hlen) v
  obtain ⟨_, _, _, _, _, hdec⟩ := decode_some c (lengths_ok_reverse c hlen) v
  rw [henc, hdec]
  exact ⟨rfl, rfl⟩

theorem claim_C10_lookups_in_bounds_witness :
    ((ShuffleID.mk 2 [[1, 0, 1, 1]]).encode 99).isSome ∧
    ((ShuffleID.mk 2 [[1, 0, 1, 1]]).decode 99).isSome :=
  claim_C10_lookups_in_bounds (ShuffleID.mk 2 [[1, 0, 1, 1]]) (by decide)
    (by decide) (by decide) 99

/-- C2: for every even `bit_size ≥ 2` and valid schedule, `encode` restricted
to `[0, 2^bit_size)` is a bijection onto that domain: it is injective there
(no duplicates) and its image is exactly the domain (no omissions). -/
theorem claim_C2_bijection (c : ShuffleID) (hbs : 2 ≤ c.bit_size)
    (heven : c.bit_size % 2 = 0)
    (hlen : ∀ T ∈ c.shuffles, T.length = 2 * c.max_shuffle)
    (hent : ∀ T ∈ c.shuffles, ∀ e ∈ T, e < c.max_shuffle) :
    (∀ v1 v2 : Int, 0 ≤ v1 → v1 < (2 : Int) ^ c.bit_size →
      0 ≤ v2 → v2 < (2 : Int) ^ c.bit_size →
      c.encode v1 = c.encode v2 → v1 = v2) ∧
    {w : Int | ∃ v : Int, 0 ≤ v ∧ v < (2 : Int) ^ c.bit_size ∧ c.encode v = some w}
      = {w : Int | 0 ≤ w ∧ w < (2 : Int) ^ c.bit_size} := by
  have hbs2 : c.bit_size = 2 * c.size := by
    unfold ShuffleID.size
    omega
  constructor
  · intro v1 v2 h01 hv1 h02 hv2 heq
    have h1 := decode_encode_eq c heven hlen v1 h01 hv1
    have h2 := decode_encode_eq c heven hlen v2 h02 hv2
    rw [heq, h2] at h1
    exact (Option.some_inj.mp h1.symm)
  · ext w
    simp only [Set.mem_setOf_eq]
    constructor
    · rintro ⟨v, h0, hv, henc⟩
      obtain ⟨x2, y2, hx2, hy2, _, henc2⟩ := encode_some c (lengths_ok c hlen) v
      rw [henc2] at henc
      obtain rfl := (Option.some_inj.mp henc).symm
      refine ⟨Int.natCast_nonneg _, ?_⟩
      rw [hbs2, ← int_two_pow]
      exact_mod_cast combine_lt c.size x2 y2 hx2 hy2
    · rintro ⟨h0w, hvw⟩
      obtain ⟨x2, y2, hx2, hy2, _, hdec⟩ := decode_some c (lengths_ok_reverse c hlen) w
      have hror := encode_decode_eq c heven hlen w h0w hvw
      rw [hdec, Option.some_bind] at hror
      refine ⟨_, Int.natCast_nonneg _, ?_, hror⟩
      rw [hbs2, ← int_two_pow]
      exact_mod_cast combine_lt c.size x2 y2 hx2 hy2

theorem claim_C2_bijection_witness :
    (∀ v1 v2 : Int, 0 ≤ v1 → v1 < (2 : Int) ^ 2 →
      0 ≤ v2 → v2 < (2 : Int) ^ 2 →
      (ShuffleID.mk 2 [[1, 0, 1, 1]]).encode v1
        = (ShuffleID.mk 2 [[1, 0, 1, 1]]).encode v2 → v1 = v2) ∧
    {w : Int | ∃ v : Int, 0 ≤ v ∧ v < (2 : Int) ^ 2 ∧
        (ShuffleID.mk 2 [[1, 0, 1, 1]]).encode v = some w}
      = {w : Int | 0 ≤ w ∧ w < (2 : Int) ^ 2} :=
  claim_C2_bijection (ShuffleID.mk 2 [[1, 0, 1, 1]]) (by decide) (by decide)
    (by decide) (by decide)

/-- The spec's high-half formula `(value >> half_size) & (max_shuffle - 1)`
equals the source's `(value & y_mask) >> size`. -/
lemma shift_mask_eq (v : Int) (s : Nat) :
    (v / (2 : Int) ^ s) % (2 : Int) ^ s = (v % (2 : Int) ^ (2 * s)) / (2 : Int) ^ s := by
  have hP : ((2 : Int) ^ s) ≠ 0 := by positivity
  have hP2 : (0 : Int) < (2 : Int) ^ (2 * s) := by positivity
  have hsq : ((2 : Int) ^ (2 * s)) = (2 : Int) ^ s * (2 : Int) ^ s := by
    rw [two_mul, pow_add]
  have hv : v = v % (2 : Int) ^ (2 * s) + (2 : Int) ^ (2 * s) * (v / (2 : Int) ^ (2 * s)) := by
    rw [Int.emod_def]
    ring
  have hnn : 0 ≤ v % (2 : Int) ^ (2 * s) := Int.emod_nonneg _ (by positivity)
  have hlt : v % (2 : Int) ^ (2 * s) < (2 : Int) ^ (2 * s) := Int.emod_lt_of_pos _ hP2
  have hdiv_nn : 0 ≤ (v % (2 : Int) ^ (2 * s)) / (2 : Int) ^ s :=
    Int.ediv_nonneg hnn (by positivity)
  have hdiv_lt : (v % (2 : Int) ^ (2 * s)) / (2 : Int) ^ s < (2 : Int) ^ s := by
    by_contra hcon
    push_neg at hcon
    have h1 : (2 : Int) ^ s * (v % (2 : Int) ^ (2 * s) / (2 : Int) ^ s)
        ≤ v % (2 : Int) ^ (2 * s) := Int.mul_ediv_self_le hP
    have h2 : (2 : Int) ^ s * (2 : Int) ^ s
        ≤ (2 : Int) ^ s * (v % (2 : Int) ^ (2 * s) / (2 : Int) ^ s) :=
      mul_le_mul_of_nonneg_left hcon (by positivity)
    rw [← hsq] at h2
    omega
  calc (v / (2 : Int) ^ s) % (2 : Int) ^ s
      = ((v % (2 : Int) ^ (2 * s) + (2 : Int) ^ (2 * s) * (v / (2 : Int) ^ (2 * s)))
          / (2 : Int) ^ s) % (2 : Int) ^ s := by rw [← hv]
    _ = (v % (2 : Int) ^ (2 * s) / (2 : Int) ^ s
          + (2 : Int) ^ s * (v / (2 : Int) ^ (2 * s))) % (2 : Int) ^ s := by
        rw [show v % (2 : Int) ^ (2 * s) + (2 : Int) ^ (2 * s) * (v / (2 : Int) ^ (2 * s))
            = v % (2 : Int) ^ (2 * s)
              + ((2 : Int) ^ s * (v / (2 : Int) ^ (2 * s))) * (2 : Int) ^ s from by
          rw [hsq]; ring]
        rw [Int.add_mul_ediv_right _ _ hP]
    _ = (v % (2 : Int) ^ (2 * s) / (2 : Int) ^ s) % (2 : Int) ^ s := by
        rw [show (2 : Int) ^ s * (v / (2 : Int) ^ (2 * s))
            = (v / (2 : Int) ^ (2 * s)) * (2 : Int) ^ s from by ring]
        rw [Int.add_mul_emod_self]
    _ = v % (2 : Int) ^ (2 * s) / (2 : Int) ^ s := Int.emod_eq_of_lt hdiv_nn hdiv_lt

/-- When every lookup is in bounds, the fallible source loop agrees with the
total spec fold. -/
lemma encodeLoop_eq_foldl (s m : Nat) (hm : 0 < m) :
    ∀ (L : List (List Nat)) (x y : Nat), x < m → y < m →
      (∀ T ∈ L, m + s ≤ T.length) →
      encodeLoop s m L x y = some (L.foldl (specRound s m) (x, y)) := by
  intro L
  induction L with
  | nil => intro x y _ _ _; rfl
  | cons T rest ih =>
    intro x y hx hy hlen
    have hT : m + s ≤ T.length := hlen T (by simp)
    have h1 : y < T.length := by omega
    have h2 : (x + T[y]) % m + s < T.length := by
      have := Nat.mod_lt (x + T[y]) hm
      omega
    have hg1 : T.getD y 0 = T[y] := by
      rw [List.getD_eq_getElem?_getD, List.getElem?_eq_getElem h1, Option.getD_some]
    have hg2 : T.getD ((x + T[y]) % m + s) 0 = T[(x + T[y]) % m + s] := by
      rw [List.getD_eq_getElem?_getD, List.getElem?_eq_getElem h2, Option.getD_some]
    simp only [encodeLoop, List.getElem?_eq_getElem h1, List.getElem?_eq_getElem h2,
      List.foldl_cons, specRound, hg1, hg2]
    exact ih ((x + T[y]) % m) ((y + T[(x + T[y]) % m + s]) % m)
      (Nat.mod_lt _ hm) (Nat.mod_lt _ hm)
      (fun U hU => hlen U (by simp [hU]))

/-- C5: on every input of the domain (and in fact on any integer input),
`encode` computes exactly what the spec describes: mask-split into `x` and
`y`, per round `x ← (x + T[y]) mod max_shuffle` then
`y ← (y + T[x + half_size]) mod max_shuffle` with the just-updated `x`, and
recombination `(y << half_size) | x`. -/
theorem claim_C5_encode_algorithm (c : ShuffleID)
    (hlen : ∀ T ∈ c.shuffles, T.length = 2 * c.max_shuffle)
    (v : Int) (h0 : 0 ≤ v) (hv : v < (2 : Int) ^ c.bit_size) :
    c.encode v = some (c.encodeSpec v) := by
  have hm : 0 < c.max_shuffle := Nat.two_pow_pos _
  have hx0 : ((v % ((2 : Int) ^ c.size)).toNat) = c.split_x v := rfl
  have hy0 : ((v / ((2 : Int) ^ c.size)) % ((2 : Int) ^ c.size)).toNat = c.split_y v := by
    unfold ShuffleID.split_y
    rw [shift_mask_eq]
  have hfold := encodeLoop_eq_foldl c.size c.max_shuffle hm c.shuffles
    (c.split_x v) (c.split_y v) (split_x_lt c v) (split_y_lt c v)
    (lengths_ok c hlen)
  unfold ShuffleID.encodeSpec
  rw [hx0, hy0]
  simp only [ShuffleID.encode, hfold]

theorem claim_C5_encode_algorithm_witness :
    (ShuffleID.mk 2 [[1, 0, 1, 1]]).encode 2
      = some ((ShuffleID.mk 2 [[1, 0, 1, 1]]).encodeSpec 2) :=
  claim_C5_encode_algorithm (ShuffleID.mk 2 [[1, 0, 1, 1]]) (by decide) 2
    (by decide) (by decide)

lemma randList_length {G : Type} (g : Nat → G → Nat × G) (bound : Nat) :
    ∀ (n : Nat) (st : G), (randList g bound n st).1.length = n := by
  intro n
  induction n with
  | zero => intro st; rfl
  | succ k ih => intro st; simp [randList, ih]

lemma randList_mem_lt {G : Type} (g : Nat → G → Nat × G) (bound : Nat)
    (hg : ∀ n st, 0 < n → (g n st).1 < n) (hb : 0 < bound) :
    ∀ (n : Nat) (st : G) (e : Nat), e ∈ (randList g bound n st).1 → e < bound := by
  intro n
  induction n with
  | zero => intro st e he; simp [randList] at he
  | succ k ih =>
    intro st e he
    simp only [randList, List.mem_cons] at he
    rcases he with he | he
    · rw [he]; exact hg bound st hb
    · exact ih _ e he

lemma randLists_length {G : Type} (g : Nat → G → Nat × G) (bound len : Nat) :
    ∀ (r : Nat) (st : G), (randLists g bound len r st).1.length = r := by
  intro r
  induction r with
  | zero => intro st; rfl
  | succ k ih => intro st; simp [randLists, ih]

lemma randLists_shape {G : Type} (g : Nat → G → Nat × G) (bound len : Nat)
    (hg : ∀ n st, 0 < n → (g n st).1 < n) (hb : 0 < bound) :
    ∀ (r : Nat) (st : G) (T : List Nat), T ∈ (randLists g bound len r st).1 →
      T.length = len ∧ ∀ e ∈ T, e < bound := by
  intro r
  induction r with
  | zero => intro st T hT; simp [randLists] at hT
  | succ k ih =>
    intro st T hT
    simp only [randLists, List.mem_cons] at hT
    rcases hT with hT | hT
    · subst hT
      exact ⟨randList_length g bound len st, randList_mem_lt g bound hg hb len st⟩
    · exact ih _ T hT

/-- C6: for every even `bit_size ≥ 2`, seed and `rounds ≥ 1`, and any
generator satisfying the `randrange` contract (output below the bound),
`from_seed` produces exactly `rounds` round tables, each of length
`2 * 2^(bit_size/2)`, with every entry in `[0, 2^(bit_size/2))`. -/
theorem claim_C6_schedule_shape {G : Type} (g : Nat → G → Nat × G)
    (initState : Int → G) (hg : ∀ n st, 0 < n → (g n st).1 < n)
    (bit_size : Nat) (hbs : 2 ≤ bit_size) (heven : bit_size % 2 = 0)
    (seed : Int) (rounds : Nat) (hr : 1 ≤ rounds) :
    (ShuffleID.from_seed g initState bit_size seed rounds).shuffles.length = rounds ∧
    ∀ T ∈ (ShuffleID.from_seed g initState bit_size seed rounds).shuffles,
      T.length = 2 * 2 ^ (bit_size / 2) ∧ ∀ e ∈ T, e < 2 ^ (bit_size / 2) := by
  constructor
  · exact randLists_length g _ _ rounds (initState seed)
  · intro T hT
    have := randLists_shape g (2 ^ (bit_size / 2)) (2 ^ (bit_size / 2) * 2) hg
      (Nat.two_pow_pos _) rounds (initState seed) T hT
    exact ⟨by rw [this.1]; ring, this.2⟩

theorem claim_C6_schedule_shape_witness :
    (ShuffleID.from_seed (fun n st => (st % n, st + 1)) (fun s : Int => s.toNat)
        2 5 1).shuffles.length = 1 ∧
    ∀ T ∈ (ShuffleID.from_seed (fun n st => (st % n, st + 1)) (fun s : Int => s.toNat)
        2 5 1).shuffles,
      T.length = 2 * 2 ^ (2 / 2) ∧ ∀ e ∈ T, e < 2 ^ (2 / 2) :=
  claim_C6_schedule_shape (fun n st => (st % n, st + 1)) (fun s : Int => s.toNat)
    (fun n st hn => Nat.mod_lt _ hn) 2 (by decide) (by decide) 5 1 (by decide)

/-- C7: two constructions via `from_seed` with identical
`(bit_size, seed, rounds)` (over the same deterministic generator) have
identical round tables, hence equal `encode` and `decode` outputs on every
input. -/
theorem claim_C7_determinism {G : Type} (g : Nat → G → Nat × G)
    (initState : Int → G) (bit_size : Nat) (seed : Int) (rounds : Nat)
    (c1 c2 : ShuffleID)
    (h1 : c1 = ShuffleID.from_seed g initState bit_size seed rounds)
    (h2 : c2 = ShuffleID.from_seed g initState bit_size seed rounds) :
    c1.shuffles = c2.shuffles ∧
    ∀ v : Int, c1.encode v = c2.encode v ∧ c1.decode v = c2.decode v := by
  subst h1
  subst h2
  exact ⟨rfl, fun v => ⟨rfl, rfl⟩⟩

theorem claim_C7_determinism_witness :
    (ShuffleID.from_seed (fun n st => (st % n, st + 1)) (fun s : Int => s.toNat)
        2 5 1).shuffles
      = (ShuffleID.from_seed (fun n st => (st % n, st + 1)) (fun s : Int => s.toNat)
        2 5 1).shuffles ∧
    ∀ v : Int,
      (ShuffleID.from_seed (fun n st => (st % n, st + 1)) (fun s : Int => s.toNat)
          2 5 1).encode v
        = (ShuffleID.from_seed (fun n st => (st % n, st + 1)) (fun s : Int => s.toNat)
          2 5 1).encode v ∧
      (ShuffleID.from_seed (fun n st => (st % n, st + 1)) (fun s : Int => s.toNat)
          2 5 1).decode v
        = (ShuffleID.from_seed (fun n st => (st % n, st + 1)) (fun s : Int => s.toNat)
          2 5 1).decode v :=
  claim_C7_determinism (fun n st => (st % n, st + 1)) (fun s : Int => s.toNat)
    2 5 1 _ _ rfl rfl

/-- C3 counterexample: `encode`/`decode` do not fail on out-of-range values.
With `bit_size = 2` the domain is `[0, 4)`, yet `encode 4`, `decode 4` and
`encode (-1)` all return a result (the code masks the input and raises no
`DomainError` — no range validation exists in `encode` or `decode`). -/
theorem claim_C3_counterexample :
    (ShuffleID.mk 2 [[0, 0, 0, 0]]).encode 4 = some 0 ∧
    (ShuffleID.mk 2 [[0, 0, 0, 0]]).decode 4 = some 0 ∧
    (ShuffleID.mk 2 [[0, 0, 0, 0]]).encode (-1) = some 3 ∧
    (ShuffleID.mk 2 [[0, 0, 0, 0]]).decode (-1) = some 3 := by
  refine ⟨?_, ?_, ?_, ?_⟩ <;> decide

/-- C3 amended: for a cipher with well-formed table lengths and any value
outside `[0, 2^bit_size)` (negative or too large), `encode` and `decode` do
not fail: they return a result, namely the one obtained for the masked
in-range value `value mod 2^bit_size`; no `DomainError` is ever raised. -/
theorem claim_C3_amended (c : ShuffleID)
    (hlen : ∀ T ∈ c.shuffles, T.length = 2 * c.max_shuffle) (v : Int)
    (hout : v < 0 ∨ (2 : Int) ^ c.bit_size ≤ v) :
    (∃ r, c.encode v = some r) ∧
    c.encode v = c.encode (v % (2 : Int) ^ c.bit_size) ∧
    (∃ r, c.decode v = some r) ∧
    c.decode v = c.decode (v % (2 : Int) ^ c.bit_size) := by
  obtain ⟨x2, y2, _, _, _, henc⟩ := encode_some c (lengths_ok c hlen) v
  obtain ⟨x3, y3, _, _, _, hdec⟩ := decode_some c (lengths_ok_reverse c hlen) v
  exact ⟨⟨_, henc⟩, (encode_mod c v).symm, ⟨_, hdec⟩, (decode_mod c v).symm⟩

theorem claim_C3_amended_witness :
    (∃ r, (ShuffleID.mk 2 [[0, 0, 0, 0]]).encode 4 = some r) ∧
    (ShuffleID.mk 2 [[0, 0, 0, 0]]).encode 4
      = (ShuffleID.mk 2 [[0, 0, 0, 0]]).encode (4 % (2 : Int) ^ 2) ∧
    (∃ r, (ShuffleID.mk 2 [[0, 0, 0, 0]]).decode 4 = some r) ∧
    (ShuffleID.mk 2 [[0, 0, 0, 0]]).decode 4
      = (ShuffleID.mk 2 [[0, 0, 0, 0]]).decode (4 % (2 : Int) ^ 2) :=
  claim_C3_amended (ShuffleID.mk 2 [[0, 0, 0, 0]]) (by decide) 4
    (Or.inr (by decide))

/-- C4 counterexample: construction never fails.  `from_seed` with the odd
`bit_size = 3` and `rounds = 0` (i.e. `rounds < 1`) returns a cipher (with
an empty schedule) instead of raising `ConfigurationError` — neither
`__init__` nor `from_seed` contains any validation. -/
theorem claim_C4_counterexample :
    ShuffleID.from_seed (fun n st => (st % n, st + 1)) (fun s : Int => s.toNat)
        3 7 0
      = ShuffleID.mk 3 [] := by
  decide

/-- C4 amended: constructing a cipher never fails, for every `bit_size`
(odd or smaller than 2 included) and every `rounds` (`rounds < 1`, i.e. 0,
included): `__init__` stores its arguments without validation, and
`from_seed` returns a cipher whose schedule simply has `rounds` tables
(empty when `rounds = 0`); no `ConfigurationError` exists in the code. -/
theorem claim_C4_amended {G : Type} (g : Nat → G → Nat × G)
    (initState : Int → G) (bit_size : Nat) (seed : Int) (rounds : Nat) :
    (ShuffleID.from_seed g initState bit_size seed rounds).bit_size = bit_size ∧
    (ShuffleID.from_seed g initState bit_size seed rounds).shuffles.length
      = rounds :=
  ⟨rfl, randLists_length g _ _ rounds (initState seed)⟩
